import Mathlib

/-!
# Verification of the Steno caption pipeline

A shallow embedding, over `ℚ` for JavaScript numbers, of the core logic of the
Steno repository: the timeline track scheduler (`CaptionTimeline`), the
word-by-word / scale-in animation state, the render-job orchestrator of
`renderer-api` (submission, cancellation, background execution, cleanup), and
the quality→CRF mapping of `render.ts`.  Definitions mirror the TypeScript
source; theorems establish or refute the properties claimed in the
specification.
-/

namespace Steno

/-- JavaScript `Math.round`: round half toward positive infinity. -/
def jsRound (x : ℚ) : ℤ := ⌊x + 1 / 2⌋

/-- A word within a caption segment (`CaptionWord` in `contracts/types.ts`). -/
structure CaptionWord where
  text : String
  start : ℚ
  «end» : ℚ
  fontSizeMultiplier : Option ℚ
  lineBreakBefore : Bool
deriving DecidableEq, Repr

/-- A caption segment (`Caption` in `contracts/types.ts`); fields not used by
any verified component are omitted. -/
structure Caption where
  id : String
  text : String
  start : ℚ
  «end» : ℚ
  words : List CaptionWord
  emphasis : List String
deriving DecidableEq, Repr

/-! ## Track Scheduler (`captionTracks` in `CaptionTimeline`)

The source sorts captions by start time, keeps a list `trackEndTimes`, places
each caption into the first track whose end time is `≤ start + 0.05`, updating
that track's end time, and opens a new track otherwise. -/

/-- The `0.05`-second buffer used by the scheduler (`// Small buffer`). -/
def epsilon : ℚ := 0.05

/-- Index of the first track whose recorded end time is `≤ s + epsilon`
(the inner `for` loop of `captionTracks`). -/
def firstFit (s : ℚ) : List ℚ → Option ℕ
  | [] => none
  | e :: rest => if e ≤ s + epsilon then some 0 else (firstFit s rest).map (· + 1)

/-- The `forEach` loop of `captionTracks`: processes captions in order against
the current `trackEndTimes`, returning the assignments and the final track end
times. -/
def scheduleAux : List Caption → List ℚ → List (Caption × ℕ) × List ℚ
  | [], ends => ([], ends)
  | c :: rest, ends =>
    match firstFit c.start ends with
    | some i =>
      let r := scheduleAux rest (ends.set i c.«end»)
      ((c, i) :: r.1, r.2)
    | none =>
      let r := scheduleAux rest (ends ++ [c.«end»])
      ((c, ends.length) :: r.1, r.2)

/-- Insert a caption after every caption with a strictly smaller start time:
the building block of a stable sort by start time. -/
def insertByStart (c : Caption) : List Caption → List Caption
  | [] => [c]
  | d :: rest => if d.start < c.start then d :: insertByStart c rest else c :: d :: rest

/-- `[...captions].sort((a, b) => a.start - b.start)`: a stable sort by start
time (JavaScript `Array.prototype.sort` is stable), modelled as stable
insertion sort. -/
def sortCaptions : List Caption → List Caption
  | [] => []
  | c :: rest => insertByStart c (sortCaptions rest)

/-- Caption-to-track assignments computed by `captionTracks`. -/
def trackAssignments (cs : List Caption) : List (Caption × ℕ) :=
  (scheduleAux (sortCaptions cs) []).1

/-- The `tracks` map of `captionTracks`: caption id ↦ track index. -/
def captionTracks (cs : List Caption) : List (String × ℕ) :=
  (trackAssignments cs).map (fun p => (p.1.id, p.2))

/-- Number of tracks opened by the scheduler. -/
def laneCount (cs : List Caption) : ℕ :=
  ((scheduleAux (sortCaptions cs) []).2).length

/-- Two captions overlap beyond the epsilon buffer: their `[start, end]`
intervals share more than `epsilon` seconds. -/
def overlapBeyond (a b : Caption) : Prop :=
  max a.start b.start + epsilon < min a.«end» b.«end»

instance : DecidablePred (fun p : Caption × Caption => overlapBeyond p.1 p.2) :=
  fun _ => by unfold overlapBeyond; infer_instance

instance (a b : Caption) : Decidable (overlapBeyond a b) := by
  unfold overlapBeyond; infer_instance

/-- `a` (scheduled no later than `b`) is still occupying its track, beyond the
epsilon buffer, when `b` starts.  This is the separation relation the greedy
first-fit actually enforces. -/
def blocks (a b : Caption) : Prop := b.start + epsilon < a.«end»

instance (a b : Caption) : Decidable (blocks a b) := by
  unfold blocks; infer_instance

/-- Ghost variant of the scheduler state: the last caption placed in each
track (its `end` is that track's recorded end time). -/
def scheduleLanes : List Caption → List Caption → List Caption
  | [], lanes => lanes
  | c :: rest, lanes =>
    match firstFit c.start (lanes.map (fun l => l.«end»)) with
    | some i => scheduleLanes rest (lanes.set i c)
    | none => scheduleLanes rest (lanes ++ [c])

/-- Ghost variant carrying, for each caption, the track a candidate
assignment gives it (the second component is never consulted). -/
def scheduleZ : List (Caption × ℕ) → List (Caption × ℕ) → List (Caption × ℕ)
  | [], lanes => lanes
  | p :: rest, lanes =>
    match firstFit p.1.start (lanes.map (fun l => l.1.«end»)) with
    | some i => scheduleZ rest (lanes.set i p)
    | none => scheduleZ rest (lanes ++ [p])

/-- A bare caption used in concrete scheduling examples. -/
def mkCaption (id : String) (s e : ℚ) : Caption :=
  { id := id, text := "", start := s, «end» := e, words := [], emphasis := [] }

def capA : Caption := mkCaption "A" 0 1

def capB : Caption := mkCaption "B" 0 1

def capC : Caption := mkCaption "C" (1 / 2) (13 / 25)

/-! ## Render parameters (`renderer-api/src/render.ts`) -/

inductive AspectRatio
  | r16x9
  | r9x16
  | r1x1
  | r4x5
deriving DecidableEq, Repr

structure Dimensions where
  width : ℕ
  height : ℕ
deriving DecidableEq, Repr

/-- `ASPECT_RATIO_DIMENSIONS` from `renderer-api/src/types.ts`. -/
def ASPECT_RATIO_DIMENSIONS : AspectRatio → Dimensions
  | .r16x9 => { width := 1920, height := 1080 }
  | .r9x16 => { width := 1080, height := 1920 }
  | .r1x1 => { width := 1080, height := 1080 }
  | .r4x5 => { width := 1080, height := 1350 }

/-- `const fps = 30` in `renderVideo`. -/
def fps : ℕ := 30

/-- `const durationInSeconds = lastCaption ? Math.ceil(lastCaption.end) + 1 : 10`
where `lastCaption = job.captions.captions[job.captions.captions.length - 1]`. -/
def durationInSeconds (captions : List Caption) : ℤ :=
  match captions.getLast? with
  | some lastCaption => ⌈lastCaption.«end»⌉ + 1
  | none => 10

/-- `const durationInFrames = durationInSeconds * fps`. -/
def durationInFrames (captions : List Caption) : ℤ :=
  durationInSeconds captions * (fps : ℤ)

/-- `crf: Math.round(51 - (job.quality / 100) * 40)` in `renderMedia`. -/
def crf (quality : ℚ) : ℤ := jsRound (51 - quality / 100 * 40)

/-! ## Animation state (`renderer/src/components/animations`)

The Remotion spring solver is library code; it is abstracted as a parameter
`springFn : SpringConfig → ℤ → ℚ` (value of the spring, from 0 toward 1, at a
given frame).  `interpolate` is Remotion's linear interpolation on a single
segment, with the default `extend` extrapolation, or with
`extrapolateRight: "clamp"` where the source passes it. -/

structure SpringConfig where
  damping : ℚ
  stiffness : ℚ
  mass : ℚ
deriving DecidableEq, Repr

def interpolate (input x0 x1 y0 y1 : ℚ) : ℚ :=
  y0 + (input - x0) * (y1 - y0) / (x1 - x0)

def interpolateClampRight (input x0 x1 y0 y1 : ℚ) : ℚ :=
  if x1 ≤ input then y1 else interpolate input x0 x1 y0 y1

structure WordVisual where
  opacity : ℚ
  scale : ℚ
  translateY : ℚ
deriving DecidableEq, Repr

/-- The per-word spring-driven state of `WordByWord` (lines 68–91):
`wordStartFrame = Math.round((word.start - captionStart) * fps)`,
`localFrame = frame - wordStartFrame`, `isVisible = localFrame >= 0`,
`wordSpring = isVisible ? spring({frame: localFrame, damping 15, stiffness 200,
mass 0.4}) : 0`, then opacity/scale/translateY via `interpolate`. -/
def wordByWordVisual (springFn : SpringConfig → ℤ → ℚ) (fpsVal : ℚ) (frame : ℤ)
    (captionStart : ℚ) (w : CaptionWord) : WordVisual :=
  let wordStartFrame : ℤ := jsRound ((w.start - captionStart) * fpsVal)
  let localFrame : ℤ := frame - wordStartFrame
  let wordSpring : ℚ :=
    if 0 ≤ localFrame then
      springFn { damping := 15, stiffness := 200, mass := 0.4 } localFrame
    else 0
  { opacity := interpolate wordSpring 0 1 0 1
    scale := interpolate wordSpring 0 1 0.5 1
    translateY := interpolate wordSpring 0 1 20 0 }

/-- `word.toLowerCase().replace(/[.,!?]/g, "")` (shared by `WordByWord`,
`Caption` and `Typewriter`). -/
def normalizeWord (s : String) : String :=
  String.mk ((s.data.map Char.toLower).filter
    (fun ch => !(ch == '.' || ch == ',' || ch == '!' || ch == '?')))

/-- `isEmphasized` from `WordByWord.tsx`. -/
def isEmphasized (emphasis : List String) (word : String) : Bool :=
  emphasis.any (fun e => normalizeWord e == normalizeWord word)

/-- Modelled from the spec: the spec says a word's normalized form is its
lowercased form with punctuation stripped; this reading strips the usual ASCII
punctuation (the source strips only `.,!?`). -/
def specPunctuation : List Char := ['.', ',', '!', '?', ';', ':']

/-- Modelled from the spec: normalization that strips every character of
`specPunctuation` after lowercasing. -/
def specNormalizeWord (s : String) : String :=
  String.mk ((s.data.map Char.toLower).filter
    (fun ch => !(specPunctuation.contains ch)))

/-- Modelled from the spec: emphasis matching under the spec's
punctuation-stripping normalization. -/
def specIsEmphasized (emphasis : List String) (word : String) : Bool :=
  emphasis.any (fun e => specNormalizeWord e == specNormalizeWord word)

structure CaptionSettings where
  fontFamily : String
  fontSize : ℚ
  fontWeight : ℕ
  color : String
  backgroundColor : String
  emphasisScale : ℚ
  maxCharsPerLine : ℕ
  lineHeight : ℚ
deriving DecidableEq, Repr

/-- `DEFAULT_CAPTION_SETTINGS` from `contracts/types.ts`. -/
def DEFAULT_CAPTION_SETTINGS : CaptionSettings :=
  { fontFamily := "Inter", fontSize := 48, fontWeight := 700
    color := "#FFFFFF", backgroundColor := "transparent"
    emphasisScale := 1.2, maxCharsPerLine := 30, lineHeight := 1.3 }

structure WordRender where
  opacity : ℚ
  scale : ℚ
  translateY : ℚ
  fontSize : ℚ
  fontWeight : ℕ
  color : String
deriving DecidableEq, Repr

/-- The full per-word style of `WordByWord` (lines 93–110): emphasis
multiplies the spring-driven scale by `emphasisScale` and overrides weight
(900) and color (`#FFD700`); `fontSizeMultiplier || 1.0` falls back on falsy
values. -/
def wordByWordRender (springFn : SpringConfig → ℤ → ℚ)
    (settings : CaptionSettings) (fpsVal : ℚ) (frame : ℤ) (captionStart : ℚ)
    (emphasis : List String) (w : CaptionWord) : WordRender :=
  let v := wordByWordVisual springFn fpsVal frame captionStart w
  let emphasized := isEmphasized emphasis w.text
  let fontSizeMultiplier : ℚ :=
    match w.fontSizeMultiplier with
    | some m => if m = 0 then 1 else m
    | none => 1
  { opacity := v.opacity
    scale := v.scale * (if emphasized then settings.emphasisScale else 1)
    translateY := v.translateY
    fontSize := settings.fontSize * fontSizeMultiplier
    fontWeight := if emphasized then 900 else settings.fontWeight
    color := if emphasized then "#FFD700" else settings.color }

/-- `ScaleIn`'s default `durationInFrames = 15`. -/
def scaleInDuration : ℚ := 15

/-- `ScaleIn` scale: `interpolate(spring({damping 12, stiffness 200, mass
0.5}), [0, 1], [0.8, 1])`. -/
def scaleInScale (springFn : SpringConfig → ℤ → ℚ) (frame : ℤ) : ℚ :=
  interpolate (springFn { damping := 12, stiffness := 200, mass := 0.5 } frame)
    0 1 0.8 1

/-- `ScaleIn` opacity: `interpolate(frame, [0, durationInFrames * 0.5],
[0, 1], {extrapolateRight: "clamp"})`. -/
def scaleInOpacity (durationFrames : ℚ) (frame : ℤ) : ℚ :=
  interpolateClampRight frame 0 (durationFrames * 0.5) 0 1

/-- Modelled from the spec: opacity ramping linearly from 0 to 1 over the
first 8 frames of the caption-local clock, clamped to 1 thereafter. -/
def specScaleInOpacity (frame : ℤ) : ℚ := interpolateClampRight frame 0 8 0 1

/-! ## Render Job Orchestrator (`renderer-api/src/index.ts`) -/

inductive RenderStatus
  | pending
  | rendering
  | complete
  | error
deriving DecidableEq, Repr

structure RenderJob where
  id : String
  status : RenderStatus
  progress : ℕ
  videoId : String
  captions : List Caption
  aspectRatio : AspectRatio
  quality : ℚ
  outputPath : Option String
  error : Option String
  createdAt : ℕ
  updatedAt : ℕ
deriving DecidableEq, Repr

/-- The body of a `POST /api/render` request; `none` models an absent (falsy)
field, matching the handler's truthiness checks. -/
structure CaptionsPayload where
  captions : Option (List Caption)
deriving DecidableEq, Repr

structure RenderRequest where
  videoId : Option String
  captions : Option CaptionsPayload
  aspectRatio : AspectRatio
  quality : ℚ
deriving DecidableEq, Repr

inductive SubmitResult
  | validationError (msg : String)
  | notFound (msg : String)
  | ok (jobId : String) (job : RenderJob)
deriving DecidableEq, Repr

/-- The job record created by `POST /api/render` (lines 84–94). -/
def newJob (req : RenderRequest) (vid jobId : String) (caps : List Caption)
    (now : ℕ) : RenderJob :=
  { id := jobId, status := .pending, progress := 0, videoId := vid
    captions := caps, aspectRatio := req.aspectRatio, quality := req.quality
    outputPath := none, error := none, createdAt := now, updatedAt := now }

/-- The synchronous part of the `POST /api/render` handler: validation of
`videoId` and `captions`, video lookup (`findVideoPath`), then job creation in
`pending`.  `videoExists` abstracts the extension-probing file lookup. -/
def postRender (videoExists : String → Bool) (req : RenderRequest)
    (jobId : String) (now : ℕ) : SubmitResult :=
  match req.videoId with
  | none => .validationError "videoId is required"
  | some vid =>
    match req.captions with
    | none => .validationError "captions is required"
    | some payload =>
      match payload.captions with
      | none => .validationError "captions is required"
      | some caps =>
        match videoExists vid with
        | false => .notFound ("Video not found: " ++ vid)
        | true => .ok jobId (newJob req vid jobId caps now)

/-- The `DELETE /api/render/:jobId` mutation: only `pending`/`rendering` jobs
are marked cancelled. -/
def cancelJob (now : ℕ) (j : RenderJob) : RenderJob :=
  if j.status = .pending ∨ j.status = .rendering then
    { j with status := .error, error := some "Cancelled by user", updatedAt := now }
  else j

structure CancelResponse where
  status : String
  jobId : String
deriving DecidableEq, Repr

inductive HandlerResult (α : Type)
  | notFound (msg : String)
  | ok (val : α)
deriving DecidableEq, Repr

/-- The `DELETE /api/render/:jobId` handler on the result of the job-store
lookup: 404 when unknown, otherwise mutate via `cancelJob` and always respond
`{status: "cancelled", jobId}`. -/
def deleteRenderHandler (now : ℕ) (jobId : String) (job : Option RenderJob) :
    HandlerResult CancelResponse × Option RenderJob :=
  match job with
  | none => (.notFound "Job not found", none)
  | some j => (.ok { status := "cancelled", jobId := jobId }, some (cancelJob now j))

/-- The events that mutate a job after submission: the synchronous prefix of
`processRenderJob` (`bgStart`), the `onProgress` callback, the cancellation
handler, and the two outcomes of the background `renderVideo` call. -/
inductive JobEvent
  | bgStart (t : ℕ)
  | progressUpdate (p : ℕ) (t : ℕ)
  | cancel (t : ℕ)
  | finishOk (outPath : String) (t : ℕ)
  | finishErr (msg : String) (t : ℕ)
deriving DecidableEq, Repr

/-- Field updates performed by each event, exactly as in
`processRenderJob` and the delete handler. -/
def stepEvent (j : RenderJob) : JobEvent → RenderJob
  | .bgStart t => { j with status := .rendering, updatedAt := t }
  | .progressUpdate p t => { j with progress := p, updatedAt := t }
  | .cancel t => cancelJob t j
  | .finishOk outPath t =>
      { j with status := .complete, progress := 100
               outputPath := some outPath, updatedAt := t }
  | .finishErr msg t =>
      { j with status := .error, error := some msg, updatedAt := t }

def isStart : JobEvent → Bool
  | .bgStart _ => true
  | _ => false

def isFinish : JobEvent → Bool
  | .finishOk _ _ => true
  | .finishErr _ _ => true
  | _ => false

/-- The sequence of observable statuses along a run. -/
def statusTrace (j : RenderJob) (evs : List JobEvent) : List RenderStatus :=
  (evs.scanl stepEvent j).map (fun s => s.status)

/-- The status transitions the code can actually produce after submission
(amended state machine): forward transitions plus the
cancellation-overwritten-by-background-completion edge `error → complete`. -/
def allowedTransition : RenderStatus → RenderStatus → Bool
  | .pending, .rendering => true
  | .rendering, .rendering => true
  | .rendering, .error => true
  | .rendering, .complete => true
  | .error, .error => true
  | .error, .complete => true
  | .complete, .complete => true
  | _, _ => false

/-! ## Cleanup sweep (`cleanupOldJobs`) -/

/-- `const maxAge = 24 * 60 * 60 * 1000`. -/
def maxAge : ℕ := 24 * 60 * 60 * 1000

/-- Abstraction of the file system seen by the sweep: `fileExists` is
`fs.existsSync`, and `unlinkFails p` says whether `fs.unlinkSync p` throws. -/
structure FileSystem where
  fileExists : String → Bool
  unlinkFails : String → Bool

/-- The `cleanupOldJobs` loop over the job store (in iteration order).
Returns the store after the sweep together with the error that escaped it, if
any: an `unlinkSync` throw aborts the whole loop — the failing job is *not*
deleted (`jobs.delete` comes after the unlink) and later entries are not
visited. -/
def cleanupOldJobs (fsys : FileSystem) (now : ℕ) :
    List (String × RenderJob) → List (String × RenderJob) × Option String
  | [] => ([], none)
  | (jobId, job) :: rest =>
    if maxAge < now - job.createdAt then
      match job.outputPath with
      | some p =>
        if fsys.fileExists p then
          if fsys.unlinkFails p then
            ((jobId, job) :: rest, some ("unlink failed: " ++ p))
          else cleanupOldJobs fsys now rest
        else cleanupOldJobs fsys now rest
      | none => cleanupOldJobs fsys now rest
    else
      let r := cleanupOldJobs fsys now rest
      ((jobId, job) :: r.1, r.2)

/-! ## Concrete values used in witnesses and counterexamples -/

def exampleRequest : RenderRequest :=
  { videoId := some "v", captions := some { captions := some [mkCaption "c" 0 1] }
    aspectRatio := .r9x16, quality := 80 }

/-- A freshly submitted job, as created by `POST /api/render`. -/
def exampleJob : RenderJob :=
  newJob exampleRequest "v" "job1" [mkCaption "c" 0 1] 0

def oldJobA : RenderJob :=
  { id := "a", status := .complete, progress := 100, videoId := "v"
    captions := [], aspectRatio := .r9x16, quality := 80
    outputPath := some "renders/a.mp4", error := none, createdAt := 0, updatedAt := 0 }

def oldJobB : RenderJob :=
  { id := "b", status := .error, progress := 40, videoId := "v"
    captions := [], aspectRatio := .r9x16, quality := 80
    outputPath := none, error := some "boom", createdAt := 0, updatedAt := 0 }

def youngJob : RenderJob :=
  { id := "y", status := .rendering, progress := 10, videoId := "v"
    captions := [], aspectRatio := .r9x16, quality := 80
    outputPath := none, error := none, createdAt := maxAge, updatedAt := maxAge }

/-- A file system on which every deletion attempt throws. -/
def failFS : FileSystem :=
  { fileExists := fun _ => true, unlinkFails := fun _ => true }

/-- A file system on which every deletion succeeds. -/
def okFS : FileSystem :=
  { fileExists := fun _ => true, unlinkFails := fun _ => false }

theorem firstFit_some_lt {s : ℚ} :
    ∀ {ends : List ℚ} {i : ℕ}, firstFit s ends = some i → i < ends.length := by
  intro ends
  induction ends with
  | nil => intro i h; simp [firstFit] at h
  | cons e rest ih =>
    intro i h
    by_cases he : e ≤ s + epsilon
    · simp [firstFit, he] at h
      subst h
      simp
    · simp [firstFit, he] at h
      obtain ⟨j, hj, rfl⟩ := h
      have := ih hj
      simp
      omega

theorem firstFit_some_le {s : ℚ} :
    ∀ {ends : List ℚ} {i : ℕ} (_ : firstFit s ends = some i) (hi : i < ends.length),
      ends[i] ≤ s + epsilon := by
  intro ends
  induction ends with
  | nil => intro i h hi; simp [firstFit] at h
  | cons e rest ih =>
    intro i h hi
    by_cases he : e ≤ s + epsilon
    · simp [firstFit, he] at h
      subst h
      simpa using he
    · simp [firstFit, he] at h
      obtain ⟨j, hj, rfl⟩ := h
      have hjlt := firstFit_some_lt hj
      simpa using ih hj hjlt

theorem firstFit_none_gt {s : ℚ} :
    ∀ {ends : List ℚ}, firstFit s ends = none → ∀ e ∈ ends, s + epsilon < e := by
  intro ends
  induction ends with
  | nil => intro _ e he; simp at he
  | cons e0 rest ih =>
    intro h e he
    by_cases he0 : e0 ≤ s + epsilon
    · simp [firstFit, he0] at h
    · simp [firstFit, he0] at h
      rcases List.mem_cons.mp he with rfl | hmem
      · linarith [not_le.mp he0]
      · exact ih h e hmem

/-- Every scheduled pair comes from the input list. -/
theorem mem_scheduleAux_fst :
    ∀ {cs : List Caption} {ends : List ℚ} {p : Caption × ℕ},
      p ∈ (scheduleAux cs ends).1 → p.1 ∈ cs := by
  intro cs
  induction cs with
  | nil => intro ends p h; simp [scheduleAux] at h
  | cons c rest ih =>
    intro ends p h
    cases hff : firstFit c.start ends with
    | some i =>
      simp only [scheduleAux, hff] at h
      rcases List.mem_cons.mp h with rfl | hmem
      · simp
      · exact List.mem_cons_of_mem _ (ih hmem)
    | none =>
      simp only [scheduleAux, hff] at h
      rcases List.mem_cons.mp h with rfl | hmem
      · simp
      · exact List.mem_cons_of_mem _ (ih hmem)

/-- If a caption is scheduled into a track that already existed, that track's
recorded end time was at most the caption's start plus epsilon. -/
theorem scheduleAux_lane_le :
    ∀ (cs : List Caption) (ends : List ℚ),
      cs.Pairwise (fun a b => a.start ≤ b.start) →
      ∀ c i, (c, i) ∈ (scheduleAux cs ends).1 →
      ∀ (hi : i < ends.length), ends[i] ≤ c.start + epsilon := by
  intro cs
  induction cs with
  | nil => intro ends _ c i hmem; simp [scheduleAux] at hmem
  | cons c0 rest ih =>
    intro ends hs c i hmem hi
    have hhead : ∀ b ∈ rest, c0.start ≤ b.start := (List.pairwise_cons.mp hs).1
    have htail : rest.Pairwise (fun a b => a.start ≤ b.start) :=
      (List.pairwise_cons.mp hs).2
    cases hff : firstFit c0.start ends with
    | some j =>
      simp only [scheduleAux, hff] at hmem
      rcases List.mem_cons.mp hmem with heq | hmem'
      · obtain ⟨rfl, rfl⟩ := Prod.mk.injEq .. ▸ heq
        exact firstFit_some_le hff hi
      · have hjlt : j < ends.length := firstFit_some_lt hff
        have hirec : i < (ends.set j c0.«end»).length := by simpa using hi
        have hrec := ih (ends.set j c0.«end») htail c i hmem' hirec
        by_cases hij : i = j
        · subst hij
          have h1 : ends[i] ≤ c0.start + epsilon := firstFit_some_le hff hi
          have h2 : c0.start ≤ c.start := hhead c (mem_scheduleAux_fst hmem')
          linarith
        · rwa [List.getElem_set_ne (by omega)] at hrec
    | none =>
      simp only [scheduleAux, hff] at hmem
      rcases List.mem_cons.mp hmem with heq | hmem'
      · obtain ⟨rfl, rfl⟩ := Prod.mk.injEq .. ▸ heq
        omega
      · have hirec : i < (ends ++ [c0.«end»]).length := by
          simp
          omega
        have hrec := ih (ends ++ [c0.«end»]) htail c i hmem' hirec
        rwa [List.getElem_append_left hi] at hrec

/-- Separation invariant of the greedy scheduler: along the processing order,
an earlier caption sharing a track with a later one has ended (up to epsilon)
by the time the later one starts. -/
theorem scheduleAux_pairwise_sep :
    ∀ (cs : List Caption) (ends : List ℚ),
      cs.Pairwise (fun a b => a.start ≤ b.start) →
      ((scheduleAux cs ends).1).Pairwise
        (fun p q => p.2 = q.2 → p.1.«end» ≤ q.1.start + epsilon) := by
  intro cs
  induction cs with
  | nil => intro ends _; simp [scheduleAux]
  | cons c0 rest ih =>
    intro ends hs
    have htail : rest.Pairwise (fun a b => a.start ≤ b.start) :=
      (List.pairwise_cons.mp hs).2
    cases hff : firstFit c0.start ends with
    | some j =>
      have hjlt : j < ends.length := firstFit_some_lt hff
      simp only [scheduleAux, hff]
      refine List.pairwise_cons.mpr ⟨?_, ih (ends.set j c0.«end») htail⟩
      intro q hq heq
      obtain ⟨q1, q2⟩ := q
      simp only at heq
      subst heq
      have hqlt : j < (ends.set j c0.«end»).length := by simpa using hjlt
      have hle := scheduleAux_lane_le rest (ends.set j c0.«end») htail q1 j
        (by simpa using hq) hqlt
      rwa [List.getElem_set_self hqlt] at hle
    | none =>
      simp only [scheduleAux, hff]
      refine List.pairwise_cons.mpr ⟨?_, ih (ends ++ [c0.«end»]) htail⟩
      intro q hq heq
      obtain ⟨q1, q2⟩ := q
      simp only at heq
      subst heq
      have hL : ends.length < (ends ++ [c0.«end»]).length := by simp
      have hle := scheduleAux_lane_le rest (ends ++ [c0.«end»]) htail q1 ends.length
        (by simpa using hq) hL
      have hget : (ends ++ [c0.«end»])[ends.length] = c0.«end» := by
        simp
      rwa [hget] at hle

theorem mem_insertByStart {c y : Caption} :
    ∀ {l : List Caption}, y ∈ insertByStart c l ↔ y = c ∨ y ∈ l := by
  intro l
  induction l with
  | nil => simp [insertByStart]
  | cons d rest ih =>
    by_cases hd : d.start < c.start
    · simp only [insertByStart, if_pos hd, List.mem_cons, ih]
      tauto
    · simp only [insertByStart, if_neg hd, List.mem_cons]

theorem pairwise_insertByStart {c : Caption} :
    ∀ {l : List Caption}, l.Pairwise (fun a b => a.start ≤ b.start) →
      (insertByStart c l).Pairwise (fun a b => a.start ≤ b.start) := by
  intro l
  induction l with
  | nil => intro _; simp [insertByStart]
  | cons d rest ih =>
    intro hp
    have hhead : ∀ y ∈ rest, d.start ≤ y.start := (List.pairwise_cons.mp hp).1
    have htail : rest.Pairwise (fun a b => a.start ≤ b.start) :=
      (List.pairwise_cons.mp hp).2
    by_cases hd : d.start < c.start
    · simp only [insertByStart, if_pos hd]
      refine List.pairwise_cons.mpr ⟨?_, ih htail⟩
      intro y hy
      rcases mem_insertByStart.mp hy with rfl | hmem
      · exact le_of_lt hd
      · exact hhead y hmem
    · simp only [insertByStart, if_neg hd]
      refine List.pairwise_cons.mpr ⟨?_, hp⟩
      intro y hy
      rcases List.mem_cons.mp hy with rfl | hmem
      · exact le_of_not_lt hd
      · exact le_trans (le_of_not_lt hd) (hhead y hmem)

/-- The sorted caption list is pairwise ordered by start time. -/
theorem sortCaptions_pairwise (cs : List Caption) :
    (sortCaptions cs).Pairwise (fun a b => a.start ≤ b.start) := by
  induction cs with
  | nil => simp [sortCaptions]
  | cons c rest ih => exact pairwise_insertByStart ih

/-- Captions assigned the same track never overlap beyond the epsilon buffer. -/
theorem trackAssignments_sep (cs : List Caption) :
    (trackAssignments cs).Pairwise
      (fun p q => p.2 = q.2 → ¬ overlapBeyond p.1 q.1) := by
  have h := scheduleAux_pairwise_sep (sortCaptions cs) [] (sortCaptions_pairwise cs)
  refine h.imp ?_
  intro p q hpq heq hover
  have hle := hpq heq
  unfold overlapBeyond at hover
  have h1 : min p.1.«end» q.1.«end» ≤ p.1.«end» := min_le_left _ _
  have h2 : q.1.start ≤ max p.1.start q.1.start := le_max_right _ _
  linarith

/-! ### Minimality of the greedy track count

The greedy scheduler uses the minimum possible number of tracks with respect to
the separation relation it enforces (`blocks`): whenever it opens a new track,
the most recent caption of every existing track, together with the caption
being placed, forms a set that must occupy pairwise-distinct tracks under any
assignment that separates `blocks`-related captions. -/

theorem scheduleAux_snd_eq :
    ∀ (cs : List Caption) (lanes : List Caption),
      (scheduleAux cs (lanes.map (fun l => l.«end»))).2
        = (scheduleLanes cs lanes).map (fun l => l.«end») := by
  intro cs
  induction cs with
  | nil => intro lanes; simp [scheduleAux, scheduleLanes]
  | cons c rest ih =>
    intro lanes
    cases hff : firstFit c.start (lanes.map (fun l => l.«end»)) with
    | some i =>
      simp only [scheduleAux, scheduleLanes, hff]
      rw [← List.map_set]
      exact ih (lanes.set i c)
    | none =>
      simp only [scheduleAux, scheduleLanes, hff]
      have : (lanes.map (fun l => l.«end»)) ++ [c.«end»]
          = (lanes ++ [c]).map (fun l => l.«end») := by simp
      rw [this]
      exact ih (lanes ++ [c])

theorem scheduleZ_map_fst :
    ∀ (ps lanes : List (Caption × ℕ)),
      (scheduleZ ps lanes).map Prod.fst
        = scheduleLanes (ps.map Prod.fst) (lanes.map Prod.fst) := by
  intro ps
  induction ps with
  | nil => intro lanes; simp [scheduleZ, scheduleLanes]
  | cons p rest ih =>
    intro lanes
    have hmm : (lanes.map Prod.fst).map (fun l => l.«end»)
        = lanes.map (fun l => l.1.«end») := by
      rw [List.map_map]
      rfl
    cases hff : firstFit p.1.start (lanes.map (fun l => l.1.«end»)) with
    | some i =>
      simp only [scheduleZ, scheduleLanes, List.map_cons, hmm, hff]
      rw [← List.map_set]
      exact ih (lanes.set i p)
    | none =>
      simp only [scheduleZ, scheduleLanes, List.map_cons, hmm, hff]
      have : (lanes.map Prod.fst) ++ [p.1] = (lanes ++ [p]).map Prod.fst := by simp
      rw [this]
      exact ih (lanes ++ [p])

theorem laneCount_eq_scheduleLanes (cs : List Caption) :
    laneCount cs = (scheduleLanes (sortCaptions cs) []).length := by
  have h := scheduleAux_snd_eq (sortCaptions cs) []
  simp only [List.map_nil] at h
  unfold laneCount
  rw [h, List.length_map]

/-- Updating one entry of a list preserves `Pairwise R` provided the new
element is `R`-related to every element in both directions. -/
theorem pairwise_set_of_rel {α : Type} {R : α → α → Prop} :
    ∀ {l : List α} {i : ℕ} {a : α},
      l.Pairwise R → (∀ x ∈ l, R x a ∧ R a x) → (l.set i a).Pairwise R := by
  intro l
  induction l with
  | nil => intro i a _ _; simp
  | cons x xs ih =>
    intro i a hp hr
    have hhead : ∀ y ∈ xs, R x y := (List.pairwise_cons.mp hp).1
    have htail : xs.Pairwise R := (List.pairwise_cons.mp hp).2
    cases i with
    | zero =>
      simp only [List.set_cons_zero]
      refine List.pairwise_cons.mpr ⟨?_, htail⟩
      intro y hy
      exact (hr y (List.mem_cons_of_mem _ hy)).2
    | succ n =>
      simp only [List.set_cons_succ]
      refine List.pairwise_cons.mpr ⟨?_, ih htail ?_⟩
      · intro y hy
        rcases List.mem_or_eq_of_mem_set hy with hmem | rfl
        · exact hhead y hmem
        · exact (hr x (List.mem_cons_self x xs)).1
      · intro y hy
        exact hr y (List.mem_cons_of_mem _ hy)

/-- A duplicate-free list of naturals below `k` has at most `k` elements. -/
theorem length_le_of_pairwise_ne_lt {l : List ℕ} {k : ℕ}
    (hnd : l.Pairwise (fun a b => a ≠ b)) (hlt : ∀ v ∈ l, v < k) :
    l.length ≤ k := by
  have hnodup : l.Nodup := hnd
  have hsub : l.toFinset ⊆ Finset.range k := by
    intro v hv
    simp only [Finset.mem_range]
    exact hlt v (List.mem_toFinset.mp hv)
  have hcard := Finset.card_le_card hsub
  rwa [List.toFinset_card_of_nodup hnodup, Finset.card_range] at hcard

/-- Core minimality invariant: any assignment that gives `blocks`-related
captions (in start order) distinct tracks, all below `k`, forces the greedy
scheduler to stay within `k` tracks. -/
theorem scheduleZ_length_le (k : ℕ) :
    ∀ (ps lanes : List (Caption × ℕ)),
      ps.Pairwise (fun p q => p.1.start ≤ q.1.start) →
      (∀ l ∈ lanes, ∀ p ∈ ps, l.1.start ≤ p.1.start) →
      (∀ p ∈ ps, p.2 < k) →
      ps.Pairwise (fun p q => blocks p.1 q.1 → p.2 ≠ q.2) →
      (∀ l ∈ lanes, ∀ p ∈ ps, blocks l.1 p.1 → l.2 ≠ p.2) →
      lanes.Pairwise (fun l l' => blocks l.1 l'.1 → blocks l'.1 l.1 → l.2 ≠ l'.2) →
      (∀ l ∈ lanes, l.2 < k) →
      lanes.length ≤ k →
      (scheduleZ ps lanes).length ≤ k := by
  intro ps
  induction ps with
  | nil => intro lanes _ _ _ _ _ _ _ h8; simpa [scheduleZ] using h8
  | cons p rest ih =>
    intro lanes h1 h2 h3 h4 h5 h6 h7 h8
    have hp_le : ∀ q ∈ rest, p.1.start ≤ q.1.start := (List.pairwise_cons.mp h1).1
    have h1' : rest.Pairwise (fun p q => p.1.start ≤ q.1.start) :=
      (List.pairwise_cons.mp h1).2
    have hp_val : ∀ q ∈ rest, blocks p.1 q.1 → p.2 ≠ q.2 :=
      (List.pairwise_cons.mp h4).1
    have h4' : rest.Pairwise (fun p q => blocks p.1 q.1 → p.2 ≠ q.2) :=
      (List.pairwise_cons.mp h4).2
    have hpk : p.2 < k := h3 p (List.mem_cons_self p rest)
    have h3' : ∀ q ∈ rest, q.2 < k := fun q hq => h3 q (List.mem_cons_of_mem _ hq)
    cases hff : firstFit p.1.start (lanes.map (fun l => l.1.«end»)) with
    | some i =>
      simp only [scheduleZ, hff]
      refine ih (lanes.set i p) h1' ?_ h3' h4' ?_ ?_ ?_ (by simpa using h8)
      · intro l hl q hq
        rcases List.mem_or_eq_of_mem_set hl with hmem | rfl
        · exact h2 l hmem q (List.mem_cons_of_mem _ hq)
        · exact hp_le q hq
      · intro l hl q hq hbl
        rcases List.mem_or_eq_of_mem_set hl with hmem | rfl
        · exact h5 l hmem q (List.mem_cons_of_mem _ hq) hbl
        · exact hp_val q hq hbl
      · refine pairwise_set_of_rel h6 ?_
        intro l hl
        constructor
        · intro hlp _
          exact h5 l hl p (List.mem_cons_self p rest) hlp
        · intro _ hlp
          exact (h5 l hl p (List.mem_cons_self p rest) hlp).symm
      · intro l hl
        rcases List.mem_or_eq_of_mem_set hl with hmem | rfl
        · exact h7 l hmem
        · exact hpk
    | none =>
      simp only [scheduleZ, hff]
      have hblock : ∀ l ∈ lanes, blocks l.1 p.1 := by
        intro l hl
        have := firstFit_none_gt hff (l.1.«end») (List.mem_map_of_mem _ hl)
        exact this
      have hne_p : ∀ l ∈ lanes, l.2 ≠ p.2 := fun l hl =>
        h5 l hl p (List.mem_cons_self p rest) (hblock l hl)
      have hlanes_ne : lanes.Pairwise (fun l l' => l.2 ≠ l'.2) := by
        refine h6.imp_of_mem ?_
        intro l l' hl hl' hrel
        have hll' : blocks l.1 l'.1 := by
          have h1e : p.1.start + epsilon < l.1.«end» := hblock l hl
          have h2s : l'.1.start ≤ p.1.start :=
            h2 l' hl' p (List.mem_cons_self p rest)
          unfold blocks at *
          linarith
        have hl'l : blocks l'.1 l.1 := by
          have h1e : p.1.start + epsilon < l'.1.«end» := hblock l' hl'
          have h2s : l.1.start ≤ p.1.start :=
            h2 l hl p (List.mem_cons_self p rest)
          unfold blocks at *
          linarith
        exact hrel hll' hl'l
      have hlen1 : lanes.length + 1 ≤ k := by
        have hvals : ((lanes.map (fun l => l.2)) ++ [p.2]).Pairwise
            (fun a b => a ≠ b) := by
          rw [List.pairwise_append]
          refine ⟨?_, by simp, ?_⟩
          · exact (List.pairwise_map).mpr hlanes_ne
          · intro v hv w hw
            simp only [List.mem_singleton] at hw
            subst hw
            obtain ⟨l, hl, rfl⟩ := List.mem_map.mp hv
            exact hne_p l hl
        have hvlt : ∀ v ∈ (lanes.map (fun l => l.2)) ++ [p.2], v < k := by
          intro v hv
          rcases List.mem_append.mp hv with hv | hv
          · obtain ⟨l, hl, rfl⟩ := List.mem_map.mp hv
            exact h7 l hl
          · simp only [List.mem_singleton] at hv
            subst hv
            exact hpk
        have := length_le_of_pairwise_ne_lt hvals hvlt
        simpa using this
      refine ih (lanes ++ [p]) h1' ?_ h3' h4' ?_ ?_ ?_ (by simpa using hlen1)
      · intro l hl q hq
        rcases List.mem_append.mp hl with hmem | hmem
        · exact h2 l hmem q (List.mem_cons_of_mem _ hq)
        · simp only [List.mem_singleton] at hmem
          subst hmem
          exact hp_le q hq
      · intro l hl q hq hbl
        rcases List.mem_append.mp hl with hmem | hmem
        · exact h5 l hmem q (List.mem_cons_of_mem _ hq) hbl
        · simp only [List.mem_singleton] at hmem
          subst hmem
          exact hp_val q hq hbl
      · rw [List.pairwise_append]
        refine ⟨h6, by simp, ?_⟩
        intro l hl q hq
        simp only [List.mem_singleton] at hq
        rw [hq]
        intro hlp _
        exact h5 l hl p (List.mem_cons_self p rest) hlp
      · intro l hl
        rcases List.mem_append.mp hl with hmem | hmem
        · exact h7 l hmem
        · simp only [List.mem_singleton] at hmem
          subst hmem
          exact hpk

/-- Minimality of the greedy track count with respect to the enforced
separation relation: any track assignment (aligned with the sorted caption
list) that keeps `blocks`-related captions apart and uses only tracks
`< k` proves `laneCount cs ≤ k`. -/
theorem laneCount_min (cs : List Caption) (k : ℕ) (ls : List ℕ)
    (hlen : ls.length = (sortCaptions cs).length)
    (hk : ∀ v ∈ ls, v < k)
    (hvalid : ((sortCaptions cs).zip ls).Pairwise
      (fun p q => blocks p.1 q.1 → p.2 ≠ q.2)) :
    laneCount cs ≤ k := by
  rw [laneCount_eq_scheduleLanes]
  have h0 : ((sortCaptions cs).zip ls).map Prod.fst = sortCaptions cs :=
    List.map_fst_zip _ _ (le_of_eq hlen.symm)
  have hsorted : ((sortCaptions cs).zip ls).Pairwise
      (fun p q => p.1.start ≤ q.1.start) := by
    have := sortCaptions_pairwise cs
    rw [← h0] at this
    exact List.Pairwise.of_map Prod.fst (fun a b h => h) this
  have hlt : ∀ p ∈ (sortCaptions cs).zip ls, p.2 < k := by
    intro p hp
    exact hk p.2 (List.of_mem_zip hp).2
  have hball := scheduleZ_length_le k ((sortCaptions cs).zip ls) []
    hsorted (by simp) hlt hvalid (by simp) (by simp) (by simp) (by simp)
  have hmap := scheduleZ_map_fst ((sortCaptions cs).zip ls) []
  simp only [List.map_nil, h0] at hmap
  have hlen2 : (scheduleLanes (sortCaptions cs) []).length
      = (scheduleZ ((sortCaptions cs).zip ls) []).length := by
    rw [← hmap, List.length_map]
  rw [hlen2]
  exact hball

/-- **C1, counterexample.**  The greedy scheduler is *not* minimal for the
overlap-beyond-epsilon relation of the claim: on `[A(0,1), B(0,1),
C(0.5,0.52)]` it opens 3 tracks, yet the assignment `A↦0, B↦1, C↦0` keeps all
captions overlapping beyond epsilon on distinct tracks using only 2 tracks
(C overlaps A and B by just 0.02 ≤ 0.05). -/
theorem captionTracks_min_counterexample :
    laneCount [capA, capB, capC] = 3 ∧
    ([(capA, 0), (capB, 1), (capC, 0)] : List (Caption × ℕ)).Pairwise
      (fun p q => overlapBeyond p.1 q.1 → p.2 ≠ q.2) ∧
    (∀ p ∈ ([(capA, 0), (capB, 1), (capC, 0)] : List (Caption × ℕ)), p.2 < 2) ∧
    ¬ laneCount [capA, capB, capC] ≤ 2 := by
  have h3 : laneCount [capA, capB, capC] = 3 := by
    norm_num [laneCount, sortCaptions, insertByStart, scheduleAux, firstFit,
      epsilon, capA, capB, capC, mkCaption]
  refine ⟨h3, ?_, ?_, ?_⟩
  · norm_num [List.pairwise_cons, overlapBeyond, capA, capB, capC, mkCaption,
      epsilon, max_def, min_def]
  · norm_num
  · rw [h3]
    norm_num

/-- **C1.**  The Track Scheduler, implemented as the stated greedy first-fit
over captions sorted by start time, (a) never puts two captions that overlap
beyond the 0.05s epsilon buffer on the same track, and (b) uses the minimal
track count among assignments that separate captions related by the
scheduler's own separation relation `blocks` (an earlier-starting caption
still running, beyond epsilon, at the later one's start) — though not minimal
for the overlap-beyond-epsilon relation itself, see the counterexample. -/
theorem captionTracks_correct (cs : List Caption) :
    (trackAssignments cs).Pairwise
      (fun p q => p.2 = q.2 → ¬ overlapBeyond p.1 q.1)
    ∧ (∀ (k : ℕ) (ls : List ℕ), ls.length = (sortCaptions cs).length →
        (∀ v ∈ ls, v < k) →
        ((sortCaptions cs).zip ls).Pairwise
          (fun p q => blocks p.1 q.1 → p.2 ≠ q.2) →
        laneCount cs ≤ k) :=
  ⟨trackAssignments_sep cs, fun k ls h1 h2 h3 => laneCount_min cs k ls h1 h2 h3⟩

/-- **C1, witness.**  Concrete instance: on the three-caption example the
separation property holds and the scheduler's 3 tracks are within the bound
given by its own (distinct-lane) assignment `[0, 1, 2]`. -/
theorem captionTracks_correct_witness :
    ((trackAssignments [capA, capB, capC]).Pairwise
      (fun p q => p.2 = q.2 → ¬ overlapBeyond p.1 q.1))
    ∧ laneCount [capA, capB, capC] ≤ 3 :=
  ⟨(captionTracks_correct [capA, capB, capC]).1,
    (captionTracks_correct [capA, capB, capC]).2 3 [0, 1, 2]
      (by norm_num [sortCaptions, insertByStart, capA, capB, capC, mkCaption])
      (by norm_num)
      (by norm_num [sortCaptions, insertByStart, capA, capB, capC, mkCaption,
        List.pairwise_cons, blocks, epsilon])⟩

/-! ## Render parameters: C4 and C8 -/

/-- **C4.**  For a non-empty captions document, background execution derives
the render duration as `ceil(lastCaption.end) + 1` seconds at the fixed frame
rate of 30 fps. -/
theorem durationInFrames_spec (captions : List Caption) (c : Caption)
    (h : captions.getLast? = some c) :
    durationInFrames captions = (⌈c.«end»⌉ + 1) * 30 := by
  simp [durationInFrames, durationInSeconds, fps, h]

/-- **C4, witness.**  A three-caption document ending at 9.4s yields
`ceil(9.4) + 1 = 11` seconds, i.e. 330 frames at 30 fps. -/
theorem durationInFrames_spec_witness :
    ([mkCaption "s1" 0 3, mkCaption "s2" 3 6,
        mkCaption "s3" 6 9.4].getLast? = some (mkCaption "s3" 6 9.4))
    ∧ durationInFrames
        [mkCaption "s1" 0 3, mkCaption "s2" 3 6, mkCaption "s3" 6 9.4] = 330 := by
  refine ⟨rfl, ?_⟩
  rw [durationInFrames_spec
    [mkCaption "s1" 0 3, mkCaption "s2" 3 6, mkCaption "s3" 6 9.4]
    (mkCaption "s3" 6 9.4) rfl]
  have hc : ⌈(9.4 : ℚ)⌉ = 10 := by
    rw [Int.ceil_eq_iff]
    norm_num
  simp [mkCaption, hc]

/-- **C8.**  The quality→CRF mapping `Math.round(51 - (quality / 100) * 40)`
is antitone: a higher quality never yields a higher CRF. -/
theorem crf_antitone (q1 q2 : ℚ) (_h0 : 0 ≤ q1) (h12 : q1 < q2)
    (_h100 : q2 ≤ 100) : crf q2 ≤ crf q1 := by
  unfold crf jsRound
  exact Int.floor_mono (by linarith)

/-- **C8, witness.**  Quality 80 yields a CRF no larger than quality 30. -/
theorem crf_antitone_witness :
    (0 : ℚ) ≤ 30 ∧ (30 : ℚ) < 80 ∧ (80 : ℚ) ≤ 100 ∧ crf 80 ≤ crf 30 :=
  ⟨by norm_num, by norm_num, by norm_num,
    crf_antitone 30 80 (by norm_num) (by norm_num) (by norm_num)⟩

/-! ## Animation state: C5, C6, C7 -/

/-- **C5.**  In `wordByWord`, a word's local clock is
`frame − round((word.start − captionStart) · fps)`; while it is negative the
opacity is exactly 0, and once non-negative the spring with damping 15,
stiffness 200, mass 0.4 drives `opacity = s` (0→1), `scale = 0.5 + 0.5·s`
(0.5→1.0) and `translateY = 20 − 20·s` (20→0), where `s` is the spring value
at the local clock. -/
theorem wordByWordVisual_spec (springFn : SpringConfig → ℤ → ℚ) (fpsVal : ℚ)
    (frame : ℤ) (captionStart : ℚ) (w : CaptionWord) :
    (frame - jsRound ((w.start - captionStart) * fpsVal) < 0 →
      wordByWordVisual springFn fpsVal frame captionStart w
        = { opacity := 0, scale := 0.5, translateY := 20 })
    ∧ (0 ≤ frame - jsRound ((w.start - captionStart) * fpsVal) →
      wordByWordVisual springFn fpsVal frame captionStart w
        = { opacity :=
              springFn { damping := 15, stiffness := 200, mass := 0.4 }
                (frame - jsRound ((w.start - captionStart) * fpsVal))
            scale := 0.5 +
              springFn { damping := 15, stiffness := 200, mass := 0.4 }
                (frame - jsRound ((w.start - captionStart) * fpsVal)) * 0.5
            translateY := 20 -
              springFn { damping := 15, stiffness := 200, mass := 0.4 }
                (frame - jsRound ((w.start - captionStart) * fpsVal)) * 20 }) := by
  constructor
  · intro hneg
    simp only [wordByWordVisual, interpolate, if_neg (not_le.mpr hneg)]
    rw [WordVisual.mk.injEq]
    refine ⟨by ring, by ring, by ring⟩
  · intro hpos
    simp only [wordByWordVisual, interpolate, if_pos hpos]
    rw [WordVisual.mk.injEq]
    refine ⟨by ring, by ring, by ring⟩

/-- **C5, witness.**  With fps 30 and a word starting 1s into the caption,
frame 10 is before the word's start (local clock −20): opacity is exactly 0;
at frame 40 (local clock 10) the spring value (here a constant-1 stand-in)
gives opacity 1, scale 1, translateY 0. -/
theorem wordByWordVisual_spec_witness :
    ((10 : ℤ) - jsRound (((1 : ℚ) - 0) * 30) < 0
      ∧ wordByWordVisual (fun _ _ => 1) 30 10 0
          { text := "hi", start := 1, «end» := 2
            fontSizeMultiplier := none, lineBreakBefore := false }
          = { opacity := 0, scale := 0.5, translateY := 20 })
    ∧ ((0 : ℤ) ≤ 40 - jsRound (((1 : ℚ) - 0) * 30)
      ∧ wordByWordVisual (fun _ _ => 1) 30 40 0
          { text := "hi", start := 1, «end» := 2
            fontSizeMultiplier := none, lineBreakBefore := false }
          = { opacity := 1, scale := 1, translateY := 0 }) := by
  have hround : jsRound (((1 : ℚ) - 0) * 30) = 30 := by
    unfold jsRound
    norm_num
  have h1 := (wordByWordVisual_spec (fun _ _ => 1) 30 10 0
    { text := "hi", start := 1, «end» := 2
      fontSizeMultiplier := none, lineBreakBefore := false }).1
  have h2 := (wordByWordVisual_spec (fun _ _ => 1) 30 40 0
    { text := "hi", start := 1, «end» := 2
      fontSizeMultiplier := none, lineBreakBefore := false }).2
  simp only [hround] at h1 h2 ⊢
  refine ⟨⟨by norm_num, h1 (by norm_num)⟩, ⟨by norm_num, ?_⟩⟩
  rw [h2 (by norm_num)]
  rw [WordVisual.mk.injEq]
  norm_num

/-- **C6, counterexample.**  The source normalization strips only `.,!?`, not
all punctuation: the word `"world;"` does not match the emphasis entry
`"world"` in the code, although under the spec's punctuation-stripping
normalization it does. -/
theorem isEmphasized_counterexample :
    specIsEmphasized ["world"] "world;" = true
    ∧ isEmphasized ["world"] "world;" = false := by
  constructor
  · decide
  · decide

/-- **C6 (amended).**  A word is emphasized iff its lowercased form with the
characters `.,!?` removed equals that of some emphasis entry; an emphasized
word's spring-driven scale is multiplied by `emphasisScale`, its weight
becomes 900 and its color `#FFD700`, and otherwise the settings' weight and
color apply. -/
theorem wordByWordRender_emphasis (springFn : SpringConfig → ℤ → ℚ)
    (settings : CaptionSettings) (fpsVal : ℚ) (frame : ℤ) (captionStart : ℚ)
    (emphasis : List String) (w : CaptionWord) :
    (isEmphasized emphasis w.text = true ↔
      ∃ e ∈ emphasis, normalizeWord e = normalizeWord w.text)
    ∧ (wordByWordRender springFn settings fpsVal frame captionStart emphasis w).scale
        = (wordByWordVisual springFn fpsVal frame captionStart w).scale *
          (if isEmphasized emphasis w.text then settings.emphasisScale else 1)
    ∧ (wordByWordRender springFn settings fpsVal frame captionStart emphasis w).fontWeight
        = (if isEmphasized emphasis w.text then 900 else settings.fontWeight)
    ∧ (wordByWordRender springFn settings fpsVal frame captionStart emphasis w).color
        = (if isEmphasized emphasis w.text then "#FFD700" else settings.color)
    ∧ (wordByWordRender springFn settings fpsVal frame captionStart emphasis w).opacity
        = (wordByWordVisual springFn fpsVal frame captionStart w).opacity := by
  refine ⟨?_, rfl, rfl, rfl, rfl⟩
  unfold isEmphasized
  rw [List.any_eq_true]
  constructor
  · rintro ⟨e, he, heq⟩
    exact ⟨e, he, by simpa using heq⟩
  · rintro ⟨e, he, heq⟩
    exact ⟨e, he, by simpa using heq⟩

/-- **C6, witness.**  Scenario from the spec: with emphasis `["world"]` the
word `"world."` matches (normalization strips the trailing period), so its
scale is multiplied by the default `emphasisScale = 1.2`, weight becomes 900
and color `#FFD700`. -/
theorem wordByWordRender_emphasis_witness :
    isEmphasized ["world"] "world." = true
    ∧ (wordByWordRender (fun _ _ => 1) DEFAULT_CAPTION_SETTINGS 30 0 0 ["world"]
        { text := "world.", start := 0, «end» := 1.5
          fontSizeMultiplier := none, lineBreakBefore := false }).fontWeight = 900
    ∧ (wordByWordRender (fun _ _ => 1) DEFAULT_CAPTION_SETTINGS 30 0 0 ["world"]
        { text := "world.", start := 0, «end» := 1.5
          fontSizeMultiplier := none, lineBreakBefore := false }).color = "#FFD700"
    ∧ (wordByWordRender (fun _ _ => 1) DEFAULT_CAPTION_SETTINGS 30 0 0 ["world"]
        { text := "world.", start := 0, «end» := 1.5
          fontSizeMultiplier := none, lineBreakBefore := false }).scale
      = (wordByWordVisual (fun _ _ => 1) 30 0 0
        { text := "world.", start := 0, «end» := 1.5
          fontSizeMultiplier := none, lineBreakBefore := false }).scale * 1.2 := by
  have h := wordByWordRender_emphasis (fun _ _ => 1) DEFAULT_CAPTION_SETTINGS
    30 0 0 ["world"]
    { text := "world.", start := 0, «end» := 1.5
      fontSizeMultiplier := none, lineBreakBefore := false }
  have hemph : isEmphasized ["world"] "world." = true := by decide
  refine ⟨hemph, ?_, ?_, ?_⟩
  · rw [h.2.2.1, hemph]
    rfl
  · rw [h.2.2.2.1, hemph]
    rfl
  · rw [h.2.1, hemph]
    rfl

/-- **C7, counterexample.**  `scaleIn`'s opacity ramp reaches 1 at frame 7.5
(half the 15-frame default duration), not 8: at frame 4 the source opacity is
`4 / 7.5 = 8/15`, while a linear ramp over the first 8 frames would give
`4/8 = 1/2`. -/
theorem scaleInOpacity_counterexample :
    scaleInOpacity scaleInDuration 4 = 8 / 15
    ∧ specScaleInOpacity 4 = 1 / 2
    ∧ (8 / 15 : ℚ) ≠ 1 / 2 := by
  refine ⟨?_, ?_, by norm_num⟩
  · rw [scaleInOpacity, scaleInDuration, interpolateClampRight,
      if_neg (by norm_num), interpolate]
    norm_num
  · rw [specScaleInOpacity, interpolateClampRight, if_neg (by norm_num),
      interpolate]
    norm_num

/-- **C7 (amended).**  `scaleIn` opacity ramps linearly at `2/15` per frame,
reaching 1 at frame 7.5 (so integer frames 0–7 are on the ramp and every
frame ≥ 8 is clamped to exactly 1), while the scale follows the spring with
damping 12, stiffness 200, mass 0.5 mapped onto 0.8→1.0
(`scale = 0.8 + 0.2·s`). -/
theorem scaleIn_spec (springFn : SpringConfig → ℤ → ℚ) (frame : ℤ) :
    (frame ≤ 7 → scaleInOpacity scaleInDuration frame = frame * (2 / 15))
    ∧ (8 ≤ frame → scaleInOpacity scaleInDuration frame = 1)
    ∧ scaleInScale springFn frame
        = 0.8 + springFn { damping := 12, stiffness := 200, mass := 0.5 } frame
            * 0.2 := by
  refine ⟨?_, ?_, ?_⟩
  · intro h7
    rw [scaleInOpacity, scaleInDuration, interpolateClampRight, if_neg ?hlt,
      interpolate]
    · ring
    case hlt =>
      intro hcon
      have : (frame : ℚ) ≤ 7 := by exact_mod_cast h7
      linarith
  · intro h8
    rw [scaleInOpacity, scaleInDuration, interpolateClampRight, if_pos ?hge]
    case hge =>
      have : (8 : ℚ) ≤ (frame : ℚ) := by exact_mod_cast h8
      linarith
  · rw [scaleInScale, interpolate]
    ring

/-- **C7, witness.**  At frame 4 the opacity is `4·2/15 = 8/15`; at frame 8
it is clamped to 1; with a constant-1 spring stand-in the scale is
`0.8 + 0.2 = 1`. -/
theorem scaleIn_spec_witness :
    ((4 : ℤ) ≤ 7 ∧ scaleInOpacity scaleInDuration 4 = 4 * (2 / 15))
    ∧ ((8 : ℤ) ≤ 8 ∧ scaleInOpacity scaleInDuration 8 = 1)
    ∧ scaleInScale (fun _ _ => 1) 0 = 1 := by
  refine ⟨⟨by norm_num, ?_⟩, ⟨le_refl 8, ?_⟩, ?_⟩
  · have h := (scaleIn_spec (fun _ _ => 1) 4).1 (by norm_num)
    rw [h]
    norm_num
  · exact (scaleIn_spec (fun _ _ => 1) 8).2.1 (le_refl 8)
  · rw [(scaleIn_spec (fun _ _ => 1) 0).2.2]
    norm_num

/-! ## Render Job Orchestrator: C2, C3, C10 -/

theorem statusTrace_head_cons (j : RenderJob) (evs : List JobEvent) :
    ∃ tl, statusTrace j evs = j.status :: tl := by
  cases evs <;> simp [statusTrace]

/-- Along any run after submission — no further `bgStart`, at most one finish
event, current status not `pending` — every adjacent pair of observed statuses
is an allowed transition of the amended machine. -/
theorem chain_aux :
    ∀ (rest : List JobEvent) (j : RenderJob),
      (∀ e ∈ rest, isStart e = false) →
      (rest.filter (fun e => isFinish e)).length ≤ 1 →
      (j.status = .complete → (rest.filter (fun e => isFinish e)).length = 0) →
      j.status ≠ .pending →
      (statusTrace j rest).Chain' (fun a b => allowedTransition a b = true) := by
  intro rest
  induction rest with
  | nil =>
    intro j _ _ _ _
    simp [statusTrace]
  | cons e evs ih =>
    intro j hns hf1 hfc hnp
    have htr : statusTrace j (e :: evs)
        = j.status :: statusTrace (stepEvent j e) evs := by
      simp [statusTrace]
    obtain ⟨tl, htl⟩ := statusTrace_head_cons (stepEvent j e) evs
    rw [htr, htl]
    refine List.chain'_cons.mpr ⟨?_, ?_⟩
    · cases e with
      | bgStart t =>
        have := hns _ (List.mem_cons_self _ _)
        simp [isStart] at this
      | progressUpdate p t =>
        rcases hstat : j.status with _ | _ | _ | _
        · exact absurd hstat hnp
        all_goals simp [stepEvent, allowedTransition, hstat]
      | cancel t =>
        rcases hstat : j.status with _ | _ | _ | _
        · exact absurd hstat hnp
        all_goals simp [stepEvent, cancelJob, hstat, allowedTransition]
      | finishOk o t =>
        rcases hstat : j.status with _ | _ | _ | _
        · exact absurd hstat hnp
        all_goals simp [stepEvent, allowedTransition, hstat]
      | finishErr m t =>
        rcases hstat : j.status with _ | _ | _ | _
        · exact absurd hstat hnp
        · simp [stepEvent, allowedTransition, hstat]
        · exfalso
          have h0 := hfc hstat
          simp [List.filter_cons, isFinish] at h0
        · simp [stepEvent, allowedTransition, hstat]
    · rw [← htl]
      have hns' : ∀ x ∈ evs, isStart x = false :=
        fun x hx => hns x (List.mem_cons_of_mem _ hx)
      have hmono : (evs.filter (fun x => isFinish x)).length
          ≤ ((e :: evs).filter (fun x => isFinish x)).length := by
        rw [List.filter_cons]
        split <;> simp
      have hf1' : (evs.filter (fun x => isFinish x)).length ≤ 1 := by omega
      have hfc' : (stepEvent j e).status = .complete →
          (evs.filter (fun x => isFinish x)).length = 0 := by
        intro hsc
        by_cases hfe : isFinish e = true
        · have hlen : ((e :: evs).filter (fun x => isFinish x)).length
              = (evs.filter (fun x => isFinish x)).length + 1 := by
            simp [List.filter_cons, hfe]
          omega
        · have hj : j.status = .complete := by
            cases e with
            | bgStart t => simp [stepEvent] at hsc
            | progressUpdate p t => simpa [stepEvent] using hsc
            | cancel t =>
              rcases hstat : j.status with _ | _ | _ | _ <;>
                simp [stepEvent, cancelJob, hstat] at hsc ⊢
            | finishOk o t => simp [isFinish] at hfe
            | finishErr m t => simp [stepEvent] at hsc
          have h0 := hfc hj
          rw [List.filter_cons] at h0
          simp only [hfe] at h0
          simpa using h0
      have hnp' : (stepEvent j e).status ≠ .pending := by
        cases e with
        | bgStart t => simp [stepEvent]
        | progressUpdate p t => simpa [stepEvent] using hnp
        | cancel t =>
          rcases hstat : j.status with _ | _ | _ | _ <;>
            simp [stepEvent, cancelJob, hstat]
        | finishOk o t => simp [stepEvent]
        | finishErr m t => simp [stepEvent]
      exact ih (stepEvent j e) hns' hf1' hfc' hnp'

/-- **C2 (counterexample).**  Submit, background start, cancel, then the
background render resolving: the `processRenderJob` success path
unconditionally overwrites the cancellation, so the observed statuses are
`pending, rendering, error, complete` — a job observed in `Error` is later
observed `Complete`. -/
theorem status_error_then_complete :
    statusTrace exampleJob
      [JobEvent.bgStart 1, JobEvent.cancel 2, JobEvent.finishOk "out.mp4" 3]
      = [.pending, .rendering, .error, .complete] := rfl

/-- **C2 (amended).**  After submission (`pending`), under any interleaving of
the single background start, progress updates, cancellations and the single
background finish, consecutive observed statuses follow
`Pending → Rendering → {Complete | Error}` with `Error` reachable by
cancellation — except that the one background finish may overwrite a
cancellation-induced `Error` with `Complete` (or `Error`); `Complete` is never
left. -/
theorem renderJob_statusMachine (t : ℕ) (j : RenderJob) (rest : List JobEvent)
    (hpend : j.status = .pending)
    (hns : ∀ e ∈ rest, isStart e = false)
    (hf1 : (rest.filter (fun e => isFinish e)).length ≤ 1) :
    (statusTrace j (JobEvent.bgStart t :: rest)).Chain'
      (fun a b => allowedTransition a b = true) := by
  have htr : statusTrace j (JobEvent.bgStart t :: rest)
      = j.status :: statusTrace (stepEvent j (.bgStart t)) rest := by
    simp [statusTrace]
  obtain ⟨tl, htl⟩ := statusTrace_head_cons (stepEvent j (.bgStart t)) rest
  rw [htr, htl]
  refine List.chain'_cons.mpr ⟨?_, ?_⟩
  · simp [stepEvent, hpend, allowedTransition]
  · rw [← htl]
    refine chain_aux rest (stepEvent j (.bgStart t)) hns hf1 ?_ ?_
    · intro h
      simp [stepEvent] at h
    · simp [stepEvent]

/-- **C2, witness.**  A concrete post-submission run (progress, cancel,
successful finish) whose status trace steps only through allowed
transitions. -/
theorem renderJob_statusMachine_witness :
    (statusTrace exampleJob
      [JobEvent.bgStart 1, JobEvent.progressUpdate 50 2, JobEvent.cancel 3,
        JobEvent.finishOk "o" 4]).Chain'
      (fun a b => allowedTransition a b = true) :=
  renderJob_statusMachine 1 exampleJob
    [JobEvent.progressUpdate 50 2, JobEvent.cancel 3, JobEvent.finishOk "o" 4]
    rfl (by decide) (by decide)

/-- **C3, counterexample.**  A request whose `captions.captions` is the empty
array passes validation: the handler creates a `pending` job and returns its
id instead of failing with a `ValidationError`. -/
theorem postRender_emptyCaptions_counterexample :
    postRender (fun _ => true)
      { videoId := some "v", captions := some { captions := some [] }
        aspectRatio := .r9x16, quality := 80 } "job1" 5
      = .ok "job1"
          { id := "job1", status := .pending, progress := 0, videoId := "v"
            captions := [], aspectRatio := .r9x16, quality := 80
            outputPath := none, error := none, createdAt := 5, updatedAt := 5 }
    ∧ ∀ msg, postRender (fun _ => true)
        { videoId := some "v", captions := some { captions := some [] }
          aspectRatio := .r9x16, quality := 80 } "job1" 5
        ≠ SubmitResult.validationError msg := by
  refine ⟨rfl, ?_⟩
  intro msg h
  simp [postRender, newJob] at h

/-- **C3 (amended).**  `POST /api/render` fails with a `ValidationError`
(400) when `videoId` or the `captions` field is missing, fails with a
`NotFoundError` (404) when the video does not resolve, and otherwise
synchronously creates a job whose initial status is `Pending` and returns its
id; an empty captions array is accepted. -/
theorem postRender_spec (videoExists : String → Bool) (req : RenderRequest)
    (jobId : String) (now : ℕ) :
    (req.videoId = none →
      postRender videoExists req jobId now
        = .validationError "videoId is required")
    ∧ (∀ vid, req.videoId = some vid → req.captions = none →
      postRender videoExists req jobId now
        = .validationError "captions is required")
    ∧ (∀ vid payload, req.videoId = some vid → req.captions = some payload →
        payload.captions = none →
      postRender videoExists req jobId now
        = .validationError "captions is required")
    ∧ (∀ vid payload caps, req.videoId = some vid →
        req.captions = some payload → payload.captions = some caps →
        videoExists vid = false →
      postRender videoExists req jobId now
        = .notFound ("Video not found: " ++ vid))
    ∧ (∀ vid payload caps, req.videoId = some vid →
        req.captions = some payload → payload.captions = some caps →
        videoExists vid = true →
      postRender videoExists req jobId now
        = .ok jobId (newJob req vid jobId caps now)
      ∧ (newJob req vid jobId caps now).status = .pending
      ∧ (newJob req vid jobId caps now).id = jobId
      ∧ (newJob req vid jobId caps now).progress = 0) := by
  refine ⟨?_, ?_, ?_, ?_, ?_⟩
  · intro h
    simp [postRender, h]
  · intro vid h1 h2
    simp [postRender, h1, h2]
  · intro vid payload h1 h2 h3
    simp [postRender, h1, h2, h3]
  · intro vid payload caps h1 h2 h3 h4
    simp [postRender, h1, h2, h3, h4]
  · intro vid payload caps h1 h2 h3 h4
    exact ⟨by simp [postRender, h1, h2, h3, h4], rfl, rfl, rfl⟩

/-- **C3, witness.**  Submitting a valid one-caption request against a store
containing the video yields the pending job with the returned id. -/
theorem postRender_spec_witness :
    postRender (fun _ => true) exampleRequest "job1" 0
      = .ok "job1" (newJob exampleRequest "v" "job1" [mkCaption "c" 0 1] 0)
    ∧ (newJob exampleRequest "v" "job1" [mkCaption "c" 0 1] 0).status
      = .pending := by
  have h := (postRender_spec (fun _ => true) exampleRequest "job1" 0).2.2.2.2
    "v" { captions := some [mkCaption "c" 0 1] } [mkCaption "c" 0 1]
    rfl rfl rfl rfl
  exact ⟨h.1, h.2.1⟩

/-- **C10.**  Cancelling a job that is already `complete` or `error` leaves
the job record entirely unchanged yet still responds 200
`{status: "cancelled", jobId}`; only `pending`/`rendering` jobs are mutated
(to `error` with message "Cancelled by user" and a fresh `updatedAt`). -/
theorem deleteRender_cancel_spec (now : ℕ) (jobId : String) (j : RenderJob) :
    ((j.status = .complete ∨ j.status = .error) →
      deleteRenderHandler now jobId (some j)
        = (.ok { status := "cancelled", jobId := jobId }, some j))
    ∧ ((j.status = .pending ∨ j.status = .rendering) →
      deleteRenderHandler now jobId (some j)
        = (.ok { status := "cancelled", jobId := jobId },
            some { j with status := .error, error := some "Cancelled by user"
                          updatedAt := now })) := by
  constructor
  · intro h
    have hne : ¬(j.status = .pending ∨ j.status = .rendering) := by
      rcases h with h | h <;> simp [h]
    simp [deleteRenderHandler, cancelJob, hne]
  · intro h
    simp [deleteRenderHandler, cancelJob, h]

/-- **C10, witness.**  Cancelling the completed job `oldJobA` returns 200
`{status: "cancelled"}` and leaves the record untouched. -/
theorem deleteRender_cancel_spec_witness :
    (oldJobA.status = .complete ∨ oldJobA.status = .error)
    ∧ deleteRenderHandler 99 "a" (some oldJobA)
        = (.ok { status := "cancelled", jobId := "a" }, some oldJobA) :=
  ⟨Or.inl rfl, (deleteRender_cancel_spec 99 "a" oldJobA).1 (Or.inl rfl)⟩

/-! ## Cleanup sweep: C9 -/

/-- When no deletion attempt throws, the sweep removes exactly the expired
jobs and no error escapes. -/
theorem cleanupOldJobs_clean (fsys : FileSystem) (now : ℕ) :
    ∀ jobs : List (String × RenderJob),
      (∀ kv ∈ jobs, ∀ p, kv.2.outputPath = some p →
        maxAge < now - kv.2.createdAt → fsys.fileExists p = true →
        fsys.unlinkFails p = false) →
      cleanupOldJobs fsys now jobs
        = (jobs.filter (fun kv => decide (now - kv.2.createdAt ≤ maxAge)), none) := by
  intro jobs
  induction jobs with
  | nil => intro _; simp [cleanupOldJobs]
  | cons kv rest ih =>
    intro hok
    obtain ⟨jobId, job⟩ := kv
    have hok' : ∀ kv ∈ rest, ∀ p, kv.2.outputPath = some p →
        maxAge < now - kv.2.createdAt → fsys.fileExists p = true →
        fsys.unlinkFails p = false :=
      fun kv hkv => hok kv (List.mem_cons_of_mem _ hkv)
    by_cases hexp : maxAge < now - job.createdAt
    · have hdrop : (decide (now - job.createdAt ≤ maxAge)) = false := by
        simp
        omega
      cases ho : job.outputPath with
      | some p =>
        by_cases hfe : fsys.fileExists p = true
        · have hnf : fsys.unlinkFails p = false :=
            hok (jobId, job) (List.mem_cons_self _ _) p ho hexp hfe
          simp only [cleanupOldJobs, if_pos hexp, ho, hfe, hnf, if_true,
            Bool.false_eq_true, if_false, List.filter_cons, hdrop]
          exact ih hok'
        · have hfe' : fsys.fileExists p = false := by
            cases hb : fsys.fileExists p
            · rfl
            · exact absurd hb hfe
          simp only [cleanupOldJobs, if_pos hexp, ho, hfe', Bool.false_eq_true,
            if_false, List.filter_cons, hdrop]
          exact ih hok'
      | none =>
        simp only [cleanupOldJobs, if_pos hexp, ho, List.filter_cons, hdrop]
        exact ih hok'
    · have hkeep : (decide (now - job.createdAt ≤ maxAge)) = true := by
        simp
        omega
      simp only [cleanupOldJobs, if_neg hexp, List.filter_cons, hkeep, if_true]
      rw [ih hok']

/-- When the sweep reaches a job whose output deletion throws, it aborts:
already-visited expired jobs are gone, but the failing job and every job after
it survive, and the error escapes the loop. -/
theorem cleanupOldJobs_aborts (fsys : FileSystem) (now : ℕ) :
    ∀ (pre : List (String × RenderJob)) (kvf : String × RenderJob)
      (post : List (String × RenderJob)) (p : String),
      (∀ kv ∈ pre, ∀ q, kv.2.outputPath = some q →
        maxAge < now - kv.2.createdAt → fsys.fileExists q = true →
        fsys.unlinkFails q = false) →
      maxAge < now - kvf.2.createdAt →
      kvf.2.outputPath = some p →
      fsys.fileExists p = true →
      fsys.unlinkFails p = true →
      cleanupOldJobs fsys now (pre ++ kvf :: post)
        = (pre.filter (fun kv => decide (now - kv.2.createdAt ≤ maxAge))
            ++ kvf :: post, some ("unlink failed: " ++ p)) := by
  intro pre
  induction pre with
  | nil =>
    intro kvf post p _ hexp ho hfe hul
    obtain ⟨fid, fjob⟩ := kvf
    dsimp only at ho hexp ⊢
    simp only [List.nil_append, List.filter_nil]
    simp only [cleanupOldJobs, if_pos hexp, ho, hfe, hul, if_true]
  | cons kv rest ih =>
    intro kvf post p hok hexp ho hfe hul
    obtain ⟨jobId, job⟩ := kv
    have hok' : ∀ kv ∈ rest, ∀ q, kv.2.outputPath = some q →
        maxAge < now - kv.2.createdAt → fsys.fileExists q = true →
        fsys.unlinkFails q = false :=
      fun kv hkv => hok kv (List.mem_cons_of_mem _ hkv)
    have hrec := ih kvf post p hok' hexp ho hfe hul
    by_cases hexp0 : maxAge < now - job.createdAt
    · have hdrop : (decide (now - job.createdAt ≤ maxAge)) = false := by
        simp
        omega
      cases ho0 : job.outputPath with
      | some q =>
        by_cases hfe0 : fsys.fileExists q = true
        · have hnf : fsys.unlinkFails q = false :=
            hok (jobId, job) (List.mem_cons_self _ _) q ho0 hexp0 hfe0
          simp only [List.cons_append, cleanupOldJobs, if_pos hexp0, ho0, hfe0,
            hnf, if_true, Bool.false_eq_true, if_false, List.filter_cons, hdrop,
            List.append_eq]
          exact hrec
        · have hfe' : fsys.fileExists q = false := by
            cases hb : fsys.fileExists q
            · rfl
            · exact absurd hb hfe0
          simp only [List.cons_append, cleanupOldJobs, if_pos hexp0, ho0, hfe',
            Bool.false_eq_true, if_false, List.filter_cons, hdrop, List.append_eq]
          exact hrec
      | none =>
        simp only [List.cons_append, cleanupOldJobs, if_pos hexp0, ho0,
          List.filter_cons, hdrop, List.append_eq]
        exact hrec
    · have hkeep : (decide (now - job.createdAt ≤ maxAge)) = true := by
        simp
        omega
      simp only [List.cons_append, cleanupOldJobs, if_neg hexp0,
        List.filter_cons, hkeep, if_true, List.append_eq]
      rw [hrec]

/-- **C9, counterexample.**  Two expired jobs; deleting the first one's output
throws.  `cleanupOldJobs` has no try/catch around `fs.unlinkSync`, so the
exception aborts the sweep: the second expired job is never removed and the
error propagates out of the loop. -/
theorem cleanup_error_counterexample :
    cleanupOldJobs failFS (maxAge + 1) [("a", oldJobA), ("b", oldJobB)]
      = ([("a", oldJobA), ("b", oldJobB)], some "unlink failed: renders/a.mp4")
    ∧ maxAge < (maxAge + 1) - oldJobB.createdAt
    ∧ ("b", oldJobB) ∈
        (cleanupOldJobs failFS (maxAge + 1) [("a", oldJobA), ("b", oldJobB)]).1
    ∧ (cleanupOldJobs failFS (maxAge + 1) [("a", oldJobA), ("b", oldJobB)]).2
        ≠ none := by
  have h : cleanupOldJobs failFS (maxAge + 1) [("a", oldJobA), ("b", oldJobB)]
      = ([("a", oldJobA), ("b", oldJobB)], some "unlink failed: renders/a.mp4") :=
    rfl
  refine ⟨h, ?_, ?_, ?_⟩
  · norm_num [oldJobB]
  · rw [h]
    simp
  · rw [h]
    simp

/-- **C9 (amended).**  An I/O error while deleting a job's output is *not*
caught: a failure-free sweep removes exactly the expired jobs, but a throwing
deletion aborts the sweep — expired jobs visited earlier are removed, the
failing job and every later job (expired or not) survive, and the error
propagates out of the sweep. -/
theorem cleanupOldJobs_spec (fsys : FileSystem) (now : ℕ) :
    (∀ jobs : List (String × RenderJob),
      (∀ kv ∈ jobs, ∀ p, kv.2.outputPath = some p →
        maxAge < now - kv.2.createdAt → fsys.fileExists p = true →
        fsys.unlinkFails p = false) →
      cleanupOldJobs fsys now jobs
        = (jobs.filter (fun kv => decide (now - kv.2.createdAt ≤ maxAge)), none))
    ∧ (∀ (pre : List (String × RenderJob)) (kvf : String × RenderJob)
        (post : List (String × RenderJob)) (p : String),
      (∀ kv ∈ pre, ∀ q, kv.2.outputPath = some q →
        maxAge < now - kv.2.createdAt → fsys.fileExists q = true →
        fsys.unlinkFails q = false) →
      maxAge < now - kvf.2.createdAt →
      kvf.2.outputPath = some p →
      fsys.fileExists p = true →
      fsys.unlinkFails p = true →
      cleanupOldJobs fsys now (pre ++ kvf :: post)
        = (pre.filter (fun kv => decide (now - kv.2.createdAt ≤ maxAge))
            ++ kvf :: post, some ("unlink failed: " ++ p))) :=
  ⟨cleanupOldJobs_clean fsys now, cleanupOldJobs_aborts fsys now⟩

/-- **C9, witness.**  On a file system where deletion succeeds, sweeping an
expired job and a young job removes exactly the expired one, with no error. -/
theorem cleanupOldJobs_spec_witness :
    cleanupOldJobs okFS (maxAge + 1) [("a", oldJobA), ("y", youngJob)]
      = ([("y", youngJob)], none) := by
  have h := (cleanupOldJobs_spec okFS (maxAge + 1)).1
    [("a", oldJobA), ("y", youngJob)]
    (fun kv hkv q hq hexp hfe => rfl)
  rw [h]
  norm_num [oldJobA, youngJob, List.filter_cons, maxAge]

end Steno
